import Mathlib

/-!
Shallow embedding of `src/Matrix_Chain_Multiplication_Optimizer.cpp`.

The C++ program stores a dimension vector `P : vector<int>`, cost table
`m : vector<vector<int>>`, split table `s : vector<vector<int>>`, with
`n = P.size() - 1`.  Machine `int` arithmetic is modelled by exact `Int`
arithmetic together with the explicit `INT_MAX` sentinel the code compares
against; the theorems that need it carry the hypothesis that the computed
costs stay strictly below `INT_MAX` (the regime where `int` arithmetic is
exact).
-/

/-- The `INT_MAX` sentinel used at line 53 of the source (32-bit `int`). -/
def INT_MAX : Int := 2147483647

/-- The two DP tables of the `MatrixChainOptimizer` class: `m` (costs) and
`s` (split points), modelled as total functions on indices.  The C++
constructor initialises both tables to all zeroes. -/
structure Tables where
  m : Nat → Nat → Int
  s : Nat → Nat → Nat

/-- Point update of the cost table: `m[i][j] = v`. -/
def setM (t : Tables) (i j : Nat) (v : Int) : Tables :=
  { t with m := fun a b => if a = i ∧ b = j then v else t.m a b }

/-- Point update of the split table: `s[i][j] = v`. -/
def setS (t : Tables) (i j : Nat) (v : Nat) : Tables :=
  { t with s := fun a b => if a = i ∧ b = j then v else t.s a b }

/-- The candidate split cost `q = m[i][k] + m[k+1][j] + P[i-1]*P[k]*P[j]`
from line 55 of the source, read off a table state `t`. -/
def qCost (P : List Int) (t : Tables) (i j k : Nat) : Int :=
  t.m i k + t.m (k + 1) j + P.getD (i - 1) 0 * P.getD k 0 * P.getD j 0

/-- One iteration `k = i + d` of the inner loop of `computeOptimalOrder`
(lines 54-60): compute `q` and update `m[i][j]`/`s[i][j]` on a strict
improvement `q < m[i][j]`. -/
def innerStep (P : List Int) (i j : Nat) (t' : Tables) (d : Nat) : Tables :=
  let k := i + d
  let q := qCost P t' i j k
  if q < t'.m i j then setS (setM t' i j q) i j k else t'

/-- The inner loop `for (k = i; k < j; ++k)` of `computeOptimalOrder`
(lines 54-60). -/
def innerLoop (P : List Int) (i j : Nat) (t : Tables) : Tables :=
  (List.range (j - i)).foldl (innerStep P i j) t

/-- One iteration of the middle loop (lines 52-60): set
`m[i][j] = INT_MAX` and run the inner scan. -/
def computeCell (P : List Int) (i j : Nat) (t : Tables) : Tables :=
  innerLoop P i j (setM t i j INT_MAX)

/-- The zero-initialised tables of the constructor (lines 41-42). -/
def initTables : Tables := ⟨fun _ _ => 0, fun _ _ => 0⟩

/-- The diagonal loop `for (i = 1; i <= n; ++i) m[i][i] = 0`
(lines 47-48). -/
def diagLoop (n : Nat) : Tables :=
  (List.range n).foldl (fun t d => setM t (d + 1) (d + 1) 0) initTables

/-- The middle loop `for (i = 1; i <= n - L + 1; ++i)` for one chain length
`L` (lines 51-61), with `j = i + L - 1`. -/
def middleLoop (P : List Int) (n L : Nat) (t : Tables) : Tables :=
  (List.range (n + 1 - L)).foldl
    (fun t' di => computeCell P (di + 1) (di + 1 + L - 1) t') t

/-- `MatrixChainOptimizer::computeOptimalOrder` (lines 46-63): the diagonal
loop, then the outer loop over chain lengths `L = 2..n`. -/
def computeOptimalOrder (P : List Int) : Tables :=
  let n := P.length - 1
  (List.range (n - 1)).foldl (fun t dL => middleLoop P n (dL + 2) t) (diagLoop n)

/-- `MatrixChainOptimizer::getMinCost` (lines 114-116): returns `m[1][n]`. -/
def getMinCost (P : List Int) : Int :=
  (computeOptimalOrder P).m 1 (P.length - 1)

/-- `MatrixChainOptimizer::printOptimalParenthesis` (lines 66-76), with the
output stream modelled as a string accumulator and the unguarded C++
recursion made total by a fuel parameter: `none` means the fuel ran out,
i.e. the C++ code recurses at least that deep. -/
def printOptimalParenthesis (s : Nat → Nat → Nat) :
    Nat → Nat → Nat → String → Option String
  | 0, _, _, _ => none
  | fuel + 1, i, j, out =>
    if i = j then some (out ++ "A" ++ toString i)
    else
      match printOptimalParenthesis s fuel i (s i j) (out ++ "(") with
      | none => none
      | some out1 =>
        match printOptimalParenthesis s fuel (s i j + 1) j (out1 ++ " x ") with
        | none => none
        | some out2 => some (out2 ++ ")")

/-- The reconstruction call of `main`/`saveToFile`:
`printOptimalParenthesis(1, n, out)` on the tables computed for `P`, with
fuel `P.length` (enough whenever the split table is well-formed). -/
def renderTop (P : List Int) : Option String :=
  printOptimalParenthesis (computeOptimalOrder P).s P.length 1 (P.length - 1) ""

/-- Whether the recursive reconstruction of interval `[i, j]` over split
table `s` terminates: some finite recursion depth suffices. -/
def emitTerminates (s : Nat → Nat → Nat) (i j : Nat) : Prop :=
  ∃ fuel, (printOptimalParenthesis s fuel i j "").isSome

/-- `MatrixChainOptimizer::catalanNumber` (lines 125-133): `long long`
bottom-up table `cat` with `cat[0] = cat[1] = 1` and
`cat[i] += cat[j] * cat[i-j-1]` for `j < i`, modelled with exact `Int`
arithmetic (the 64-bit width is addressed separately). -/
def catalanNumber (n : Nat) : Int :=
  if n ≤ 1 then 1
  else
    let cat0 : List Int := List.replicate (n + 1) 0
    let cat1 := (cat0.set 0 1).set 1 1
    let catN := (List.range (n - 1)).foldl
      (fun cat di =>
        let i := di + 2
        cat.set i ((List.range i).foldl
          (fun acc j => acc + cat.getD j 0 * cat.getD (i - j - 1) 0)
          (cat.getD i 0))) cat1
    catN.getD n 0

/-- Pure reference scan for the inner loop: `scanQ f i acc c` is the
`(m[i][j], s[i][j])` pair after the first `c` iterations `k = i .. i+c-1`
of the strict-improvement scan, starting from accumulator `acc`. -/
def scanQ (f : Nat → Int) (i : Nat) (acc : Int × Nat) : Nat → Int × Nat
  | 0 => acc
  | c + 1 =>
    let r := scanQ f i acc c
    let k := i + c
    if f k < r.1 then (f k, k) else r

/-- Full parenthesizations of the product of matrices `i .. j`
(cf. spec §4.2 and §8): a leaf is a single matrix, a node splits `[i, j]`
at some `k` with `i ≤ k < j`. -/
inductive PTree : Nat → Nat → Type where
  | leaf (i : Nat) : PTree i i
  | node (i k j : Nat) (hik : i ≤ k) (hkj : k < j)
      (l : PTree i k) (r : PTree (k + 1) j) : PTree i j

/-- Total scalar-multiplication cost of a full parenthesization: a split at
`k` costs its two halves plus `P[i-1]*P[k]*P[j]`. -/
def treeCost (P : List Int) : {i j : Nat} → PTree i j → Int
  | _, _, .leaf _ => 0
  | _, _, .node i k j _ _ l r =>
    treeCost P l + treeCost P r + P.getD (i - 1) 0 * P.getD k 0 * P.getD j 0

/-- Cell `(i, j)` of table `t` holds exactly the result of the sentinel
scan of the candidate costs read off `t` itself. -/
def cellOK (P : List Int) (t : Tables) (i j : Nat) : Prop :=
  (t.m i j, t.s i j) = scanQ (fun k => qCost P t i j k) i (INT_MAX, 0) (j - i)

/-- Which cells have been finalised after the middle loop for chain length
`L` has processed start indices `1 .. c` (cells of shorter lengths are all
done; of length exactly `L`, those with `i ≤ c`). -/
def procAt (n L c i j : Nat) : Prop :=
  1 ≤ i ∧ i < j ∧ j ≤ n ∧ (j + 1 < i + L ∨ (j + 1 = i + L ∧ i ≤ c))

/-- Loop invariant: finalised cells satisfy the DP recurrence, all other
cells still hold the constructor's zeroes. -/
def MidInv (P : List Int) (n L c : Nat) (t : Tables) : Prop :=
  (∀ i j, procAt n L c i j → cellOK P t i j) ∧
  (∀ i j, ¬ procAt n L c i j → t.m i j = 0 ∧ t.s i j = 0)

/-- Reference renderer: the string the reconstruction produces, defined by
structural recursion on the interval width.  The split index is clamped
into `[i, j-1]` purely to make the recursion well-founded; on a
well-formed split table (`i ≤ s i j < j`) the clamp is the identity. -/
def renderSpec (s : Nat → Nat → Nat) (i j : Nat) : String :=
  if _h : i < j then
    let k := min (max (s i j) i) (j - 1)
    "(" ++ renderSpec s i k ++ " x " ++ renderSpec s (k + 1) j ++ ")"
  else "A" ++ toString i
termination_by j - i
decreasing_by
  · simp_wf; omega
  · simp_wf; omega

/-! ### Generic fold lemmas -/

/-- Invariant propagation along `foldl` over `List.range c`. -/
theorem foldl_range_inv {α : Type} (step : α → Nat → α) (Inv : Nat → α → Prop)
    (c : Nat) (a0 : α) (h0 : Inv 0 a0)
    (hstep : ∀ d a, d < c → Inv d a → Inv (d + 1) (step a d)) :
    Inv c ((List.range c).foldl step a0) := by
  induction c with
  | zero => simpa using h0
  | succ c ih =>
    rw [List.range_succ, List.foldl_append, List.foldl_cons, List.foldl_nil]
    exact hstep c _ (Nat.lt_succ_self c)
      (ih (fun d a hd ha => hstep d a (Nat.lt_succ_of_lt hd) ha))

/-! ### Frame lemmas: each write touches exactly one cell -/

theorem setM_m_same (t : Tables) (i j : Nat) (v : Int) :
    (setM t i j v).m i j = v := by simp [setM]

theorem setM_m_ne (t : Tables) (i j : Nat) (v : Int) (a b : Nat)
    (h : ¬(a = i ∧ b = j)) : (setM t i j v).m a b = t.m a b := by
  simp only [setM, if_neg h]

theorem setM_s (t : Tables) (i j : Nat) (v : Int) (a b : Nat) :
    (setM t i j v).s a b = t.s a b := rfl

theorem setS_s_same (t : Tables) (i j : Nat) (v : Nat) :
    (setS t i j v).s i j = v := by simp [setS]

theorem setS_s_ne (t : Tables) (i j : Nat) (v : Nat) (a b : Nat)
    (h : ¬(a = i ∧ b = j)) : (setS t i j v).s a b = t.s a b := by
  simp only [setS, if_neg h]

theorem setS_m (t : Tables) (i j : Nat) (v : Nat) (a b : Nat) :
    (setS t i j v).m a b = t.m a b := rfl

theorem innerStep_m_ne (P : List Int) (i j : Nat) (t : Tables) (d : Nat)
    (a b : Nat) (h : ¬(a = i ∧ b = j)) :
    (innerStep P i j t d).m a b = t.m a b := by
  unfold innerStep
  dsimp only
  split
  · rw [setS_m, setM_m_ne _ _ _ _ _ _ h]
  · rfl

theorem innerStep_s_ne (P : List Int) (i j : Nat) (t : Tables) (d : Nat)
    (a b : Nat) (h : ¬(a = i ∧ b = j)) :
    (innerStep P i j t d).s a b = t.s a b := by
  unfold innerStep
  dsimp only
  split
  · rw [setS_s_ne _ _ _ _ _ _ h, setM_s]
  · rfl

theorem foldl_innerStep_m_ne (P : List Int) (i j : Nat) (l : List Nat) :
    ∀ (t : Tables) (a b : Nat), ¬(a = i ∧ b = j) →
      (l.foldl (innerStep P i j) t).m a b = t.m a b := by
  induction l with
  | nil => intro t a b _; rfl
  | cons d l ih =>
    intro t a b h
    rw [List.foldl_cons, ih _ _ _ h, innerStep_m_ne _ _ _ _ _ _ _ h]

theorem foldl_innerStep_s_ne (P : List Int) (i j : Nat) (l : List Nat) :
    ∀ (t : Tables) (a b : Nat), ¬(a = i ∧ b = j) →
      (l.foldl (innerStep P i j) t).s a b = t.s a b := by
  induction l with
  | nil => intro t a b _; rfl
  | cons d l ih =>
    intro t a b h
    rw [List.foldl_cons, ih _ _ _ h, innerStep_s_ne _ _ _ _ _ _ _ h]

theorem computeCell_m_ne (P : List Int) (i j : Nat) (t : Tables) (a b : Nat)
    (h : ¬(a = i ∧ b = j)) : (computeCell P i j t).m a b = t.m a b := by
  unfold computeCell innerLoop
  rw [foldl_innerStep_m_ne _ _ _ _ _ _ _ h, setM_m_ne _ _ _ _ _ _ h]

theorem computeCell_s_ne (P : List Int) (i j : Nat) (t : Tables) (a b : Nat)
    (h : ¬(a = i ∧ b = j)) : (computeCell P i j t).s a b = t.s a b := by
  unfold computeCell innerLoop
  rw [foldl_innerStep_s_ne _ _ _ _ _ _ _ h, setM_s]

/-! ### The inner loop computes `scanQ` on cell `(i, j)` -/

/-- `scanQ` only evaluates its candidate function on `[i, i+c)`. -/
theorem scanQ_congr (f g : Nat → Int) (i : Nat) (acc : Int × Nat) (c : Nat)
    (h : ∀ d, d < c → f (i + d) = g (i + d)) :
    scanQ f i acc c = scanQ g i acc c := by
  induction c with
  | zero => rfl
  | succ c ih =>
    simp only [scanQ]
    rw [ih (fun d hd => h d (Nat.lt_succ_of_lt hd)), h c (Nat.lt_succ_self c)]

theorem foldl_innerStep_cell (P : List Int) (i j : Nat) (hij : i < j) :
    ∀ (c : Nat), c ≤ j - i → ∀ (t : Tables),
      (((List.range c).foldl (innerStep P i j) t).m i j,
        ((List.range c).foldl (innerStep P i j) t).s i j)
        = scanQ (fun k => qCost P t i j k) i (t.m i j, t.s i j) c := by
  intro c
  induction c with
  | zero => intro _ t; rfl
  | succ c ih =>
    intro hc t
    rw [List.range_succ, List.foldl_append, List.foldl_cons, List.foldl_nil]
    have hc' : c ≤ j - i := Nat.le_of_succ_le hc
    have hcell := ih hc' t
    set tc := (List.range c).foldl (innerStep P i j) t with htc
    have hki : ¬(i = i ∧ i + c = j) := by omega
    have hkj : ¬(i + c + 1 = i ∧ j = j) := by omega
    have hq : qCost P tc i j (i + c) = qCost P t i j (i + c) := by
      unfold qCost
      rw [foldl_innerStep_m_ne _ _ _ _ _ _ _ hki,
        foldl_innerStep_m_ne _ _ _ _ _ _ _ hkj]
    unfold scanQ
    rw [← hcell]
    unfold innerStep
    dsimp only
    rw [hq]
    by_cases hlt : qCost P t i j (i + c) < tc.m i j
    · rw [if_pos hlt, if_pos hlt, setS_m, setM_m_same, setS_s_same]
    · rw [if_neg hlt, if_neg hlt]

theorem computeCell_cell (P : List Int) (i j : Nat) (hij : i < j)
    (t : Tables) :
    ((computeCell P i j t).m i j, (computeCell P i j t).s i j)
      = scanQ (fun k => qCost P t i j k) i (INT_MAX, t.s i j) (j - i) := by
  unfold computeCell innerLoop
  rw [foldl_innerStep_cell P i j hij (j - i) (Nat.le_refl _) (setM t i j INT_MAX)]
  rw [setM_m_same, setM_s]
  apply scanQ_congr
  intro d hd
  unfold qCost
  have h1 : ¬(i = i ∧ i + d = j) := by omega
  have h2 : ¬(i + d + 1 = i ∧ j = j) := by omega
  rw [setM_m_ne _ _ _ _ _ _ h1, setM_m_ne _ _ _ _ _ _ h2]

/-! ### The table produced by `computeOptimalOrder` satisfies the DP
recurrence with sentinel, cell by cell -/

theorem cellOK_preserved (P : List Int) (t t' : Tables) (i j : Nat)
    (hm : t'.m i j = t.m i j) (hs : t'.s i j = t.s i j)
    (hreads : ∀ k, i ≤ k → k < j →
      t'.m i k = t.m i k ∧ t'.m (k + 1) j = t.m (k + 1) j)
    (h : cellOK P t i j) : cellOK P t' i j := by
  unfold cellOK at h ⊢
  rw [hm, hs, h]
  apply scanQ_congr
  intro d hd
  have hr := hreads (i + d) (Nat.le_add_right i d) (by omega)
  unfold qCost
  rw [hr.1, hr.2]

theorem diagLoop_zero (n : Nat) :
    ∀ a b, (diagLoop n).m a b = 0 ∧ (diagLoop n).s a b = 0 := by
  unfold diagLoop
  refine foldl_range_inv _ (fun _ t => ∀ a b, t.m a b = 0 ∧ t.s a b = 0)
    n initTables (fun a b => ⟨rfl, rfl⟩) ?_
  intro d t _ ih a b
  refine ⟨?_, by rw [setM_s]; exact (ih a b).2⟩
  by_cases h : a = d + 1 ∧ b = d + 1
  · rw [h.1, h.2, setM_m_same]
  · rw [setM_m_ne _ _ _ _ _ _ h]; exact (ih a b).1

theorem midStep (P : List Int) (n L c : Nat) (hL : 2 ≤ L)
    (hc : c < n + 1 - L) (t : Tables) (h : MidInv P n L c t) :
    MidInv P n L (c + 1) (computeCell P (c + 1) (c + 1 + L - 1) t) := by
  set i0 := c + 1 with hi0
  set j0 := c + 1 + L - 1 with hj0
  have hij0 : i0 < j0 := by omega
  have hj0n : j0 ≤ n := by omega
  have hnew : procAt n L (c + 1) i0 j0 := by unfold procAt; omega
  have hold : ¬ procAt n L c i0 j0 := by unfold procAt; omega
  set t' := computeCell P i0 j0 t with ht'
  constructor
  · intro i j hp
    by_cases heq : i = i0 ∧ j = j0
    · -- the freshly computed cell
      rw [heq.1, heq.2]
      have hs0 : t.s i0 j0 = 0 := (h.2 i0 j0 hold).2
      have hcell := computeCell_cell P i0 j0 hij0 t
      rw [hs0] at hcell
      unfold cellOK
      rw [hcell]
      apply scanQ_congr
      intro d hd
      unfold qCost
      have h1 : ¬(i0 = i0 ∧ i0 + d = j0) := by omega
      have h2 : ¬(i0 + d + 1 = i0 ∧ j0 = j0) := by omega
      rw [computeCell_m_ne _ _ _ _ _ _ h1, computeCell_m_ne _ _ _ _ _ _ h2]
    · -- previously finalised cells are untouched, and so are their reads
      have hp' : procAt n L c i j := by
        unfold procAt at hp ⊢
        omega
      have hlen : j + 1 ≤ i + L := by unfold procAt at hp'; omega
      have hi1 : 1 ≤ i := hp'.1
      have hijlt : i < j := hp'.2.1
      apply cellOK_preserved P t t' i j
      · exact computeCell_m_ne _ _ _ _ _ _ heq
      · exact computeCell_s_ne _ _ _ _ _ _ heq
      · intro k hik hkj
        constructor
        · exact computeCell_m_ne _ _ _ _ _ _ (by omega)
        · exact computeCell_m_ne _ _ _ _ _ _ (by omega)
      · exact h.1 i j hp'
  · intro i j hnp
    have hne : ¬(i = i0 ∧ j = j0) := by
      intro hh; rw [hh.1, hh.2] at hnp; exact hnp hnew
    have hnp' : ¬ procAt n L c i j := by
      intro hh; apply hnp; unfold procAt at hh ⊢; omega
    have hz := h.2 i j hnp'
    exact ⟨by rw [computeCell_m_ne _ _ _ _ _ _ hne]; exact hz.1,
      by rw [computeCell_s_ne _ _ _ _ _ _ hne]; exact hz.2⟩

theorem middleLoop_inv (P : List Int) (n L : Nat) (hL : 2 ≤ L) (t : Tables)
    (h : MidInv P n L 0 t) :
    MidInv P n L (n + 1 - L) (middleLoop P n L t) := by
  unfold middleLoop
  exact foldl_range_inv _ (fun c t' => MidInv P n L c t') (n + 1 - L) t h
    (fun d a hd ha => midStep P n L d hL hd a ha)

theorem midInv_shift (P : List Int) (n L : Nat) (t : Tables)
    (h : MidInv P n L (n + 1 - L) t) : MidInv P n (L + 1) 0 t := by
  constructor
  · intro i j hp
    apply h.1
    unfold procAt at hp ⊢
    omega
  · intro i j hnp
    apply h.2
    intro hh
    apply hnp
    unfold procAt at hh ⊢
    omega

theorem computeOptimalOrder_inv (P : List Int) :
    MidInv P (P.length - 1) (P.length - 1 - 1 + 2) 0 (computeOptimalOrder P) := by
  unfold computeOptimalOrder
  apply foldl_range_inv _
    (fun dL t => MidInv P (P.length - 1) (dL + 2) 0 t)
  · constructor
    · intro i j hp
      exfalso
      unfold procAt at hp
      omega
    · intro i j _
      exact diagLoop_zero (P.length - 1) i j
  · intro d t hd ht
    exact midInv_shift P (P.length - 1) (d + 2) _
      (middleLoop_inv P (P.length - 1) (d + 2) (by omega) t ht)

/-- Master characterisation of `computeOptimalOrder`: every strict
upper-triangle cell satisfies the sentinel DP recurrence, and every other
cell (diagonal included) still holds the constructor's zeroes. -/
theorem computeOptimalOrder_spec (P : List Int) :
    (∀ i j, 1 ≤ i → i < j → j ≤ P.length - 1 →
      cellOK P (computeOptimalOrder P) i j) ∧
    (∀ i j, ¬(1 ≤ i ∧ i < j ∧ j ≤ P.length - 1) →
      (computeOptimalOrder P).m i j = 0 ∧
        (computeOptimalOrder P).s i j = 0) := by
  have hinv := computeOptimalOrder_inv P
  constructor
  · intro i j h1 h2 h3
    apply hinv.1
    unfold procAt
    omega
  · intro i j hn
    apply hinv.2
    intro hh
    apply hn
    unfold procAt at hh
    omega

/-! ### Properties of the sentinel scan -/

theorem scanQ_fst_le_step (f : Nat → Int) (i : Nat) (acc : Int × Nat)
    (c : Nat) : (scanQ f i acc (c + 1)).1 ≤ (scanQ f i acc c).1 := by
  simp only [scanQ]
  split
  · exact le_of_lt (by assumption)
  · exact le_refl _

theorem scanQ_fst_le_init (f : Nat → Int) (i : Nat) (acc : Int × Nat) :
    ∀ c, (scanQ f i acc c).1 ≤ acc.1 := by
  intro c
  induction c with
  | zero => exact le_refl _
  | succ c ih => exact le_trans (scanQ_fst_le_step f i acc c) ih

theorem scanQ_le_cand (f : Nat → Int) (i : Nat) (acc : Int × Nat) :
    ∀ c d, d < c → (scanQ f i acc c).1 ≤ f (i + d) := by
  intro c
  induction c with
  | zero => intro d hd; omega
  | succ c ih =>
    intro d hd
    by_cases hdc : d = c
    · subst hdc
      simp only [scanQ]
      split
      · exact le_refl _
      · exact le_of_not_lt (by assumption)
    · exact le_trans (scanQ_fst_le_step f i acc c) (ih d (by omega))

theorem scanQ_attain (f : Nat → Int) (i : Nat) (acc : Int × Nat) :
    ∀ c, scanQ f i acc c = acc ∨
      ∃ d, d < c ∧ scanQ f i acc c = (f (i + d), i + d) := by
  intro c
  induction c with
  | zero => exact Or.inl rfl
  | succ c ih =>
    simp only [scanQ]
    split
    · exact Or.inr ⟨c, Nat.lt_succ_self c, rfl⟩
    · rcases ih with h | ⟨d, hd, h⟩
      · exact Or.inl h
      · exact Or.inr ⟨d, Nat.lt_succ_of_lt hd, h⟩

/-- If every scanned candidate beats the initial accumulator, the scan
returns the first minimal candidate: earlier candidates are strictly
larger. -/
theorem scanQ_first (f : Nat → Int) (i : Nat) (acc : Int × Nat) :
    ∀ c, 0 < c → (∀ d, d < c → f (i + d) < acc.1) →
      ∃ d, d < c ∧ scanQ f i acc c = (f (i + d), i + d) ∧
        ∀ e, e < d → (scanQ f i acc c).1 < f (i + e) := by
  intro c
  induction c with
  | zero => intro h; omega
  | succ c ih =>
    intro _ hall
    by_cases hc0 : c = 0
    · subst hc0
      refine ⟨0, Nat.lt_succ_self 0, ?_, fun e he => by omega⟩
      simp only [scanQ]
      rw [if_pos (by simpa using hall 0 (Nat.lt_succ_self 0))]
    · obtain ⟨d, hd, hres, hfirst⟩ :=
        ih (by omega) (fun d hd => hall d (Nat.lt_succ_of_lt hd))
      simp only [scanQ]
      by_cases hlt : f (i + c) < (scanQ f i acc c).1
      · refine ⟨c, Nat.lt_succ_self c, by rw [if_pos hlt], ?_⟩
        intro e he
        rw [if_pos hlt]
        exact lt_of_lt_of_le hlt (scanQ_le_cand f i acc c e he)
      · refine ⟨d, Nat.lt_succ_of_lt hd, by rw [if_neg hlt]; exact hres, ?_⟩
        intro e he
        rw [if_neg hlt]
        exact hfirst e he

/-! ### Cell-level consequences -/

theorem cell_m_eq (P : List Int) (i j : Nat) (h1 : 1 ≤ i) (h2 : i < j)
    (h3 : j ≤ P.length - 1) :
    (computeOptimalOrder P).m i j =
      (scanQ (fun k => qCost P (computeOptimalOrder P) i j k) i
        (INT_MAX, 0) (j - i)).1 :=
  congrArg Prod.fst ((computeOptimalOrder_spec P).1 i j h1 h2 h3)

theorem cell_s_eq (P : List Int) (i j : Nat) (h1 : 1 ≤ i) (h2 : i < j)
    (h3 : j ≤ P.length - 1) :
    (computeOptimalOrder P).s i j =
      (scanQ (fun k => qCost P (computeOptimalOrder P) i j k) i
        (INT_MAX, 0) (j - i)).2 :=
  congrArg Prod.snd ((computeOptimalOrder_spec P).1 i j h1 h2 h3)

/-- With every candidate strictly below the sentinel, cell `(i, j)` holds
the first minimal candidate cost and its split index. -/
theorem cell_argmin (P : List Int) (i j : Nat) (h1 : 1 ≤ i) (h2 : i < j)
    (h3 : j ≤ P.length - 1)
    (hall : ∀ k, i ≤ k → k < j →
      qCost P (computeOptimalOrder P) i j k < INT_MAX) :
    ∃ d, d < j - i ∧
      (computeOptimalOrder P).m i j =
        qCost P (computeOptimalOrder P) i j (i + d) ∧
      (computeOptimalOrder P).s i j = i + d ∧
      ∀ e, e < d → (computeOptimalOrder P).m i j <
        qCost P (computeOptimalOrder P) i j (i + e) := by
  obtain ⟨d, hd, hres, hfirst⟩ :=
    scanQ_first (fun k => qCost P (computeOptimalOrder P) i j k) i
      (INT_MAX, 0) (j - i) (by omega)
      (fun d hd => hall (i + d) (Nat.le_add_right i d) (by omega))
  refine ⟨d, hd, ?_, ?_, ?_⟩
  · rw [cell_m_eq P i j h1 h2 h3, hres]
  · rw [cell_s_eq P i j h1 h2 h3, hres]
  · intro e he
    rw [cell_m_eq P i j h1 h2 h3]
    exact hfirst e he

/-- The finalised `m[i][j]` is at most each candidate split cost. -/
theorem cell_le_split (P : List Int) (i j k : Nat)
    (h1 : 1 ≤ i) (h2 : i ≤ j) (h3 : j ≤ P.length - 1)
    (h4 : i ≤ k) (h5 : k < j) :
    (computeOptimalOrder P).m i j ≤
      (computeOptimalOrder P).m i k + (computeOptimalOrder P).m (k + 1) j +
        P.getD (i - 1) 0 * P.getD k 0 * P.getD j 0 := by
  have hij : i < j := by omega
  have h := scanQ_le_cand (fun k => qCost P (computeOptimalOrder P) i j k) i
    (INT_MAX, 0) (j - i) (k - i) (by omega)
  rw [cell_m_eq P i j h1 hij h3]
  have hk : i + (k - i) = k := by omega
  rw [hk] at h
  exact h

/-! ### Claim theorems: C8, C2, C10, C9 -/

/-- C8: after `computeOptimalOrder`, for every `1 ≤ i ≤ j ≤ n` and every
split `k` in `[i, j)`, `m[i][j] ≤ m[i][k] + m[k+1][j] + P[i-1]*P[k]*P[j]`
holds. -/
theorem c8_min_le_every_split (P : List Int) (i j k : Nat)
    (h1 : 1 ≤ i) (h2 : i ≤ j) (h3 : j ≤ P.length - 1)
    (h4 : i ≤ k) (h5 : k < j) :
    (computeOptimalOrder P).m i j ≤
      (computeOptimalOrder P).m i k + (computeOptimalOrder P).m (k + 1) j +
        P.getD (i - 1) 0 * P.getD k 0 * P.getD j 0 :=
  cell_le_split P i j k h1 h2 h3 h4 h5

/-- C8 witness at `P = [10, 20, 30, 40, 30]`, `i = 1`, `k = 2`, `j = 4`. -/
theorem c8_min_le_every_split_witness :
    (1 ≤ 1 ∧ 1 ≤ 4 ∧ 4 ≤ [10, 20, 30, 40, 30].length - 1 ∧ 1 ≤ 2 ∧ 2 < 4) ∧
    (computeOptimalOrder [10, 20, 30, 40, 30]).m 1 4 ≤
      (computeOptimalOrder [10, 20, 30, 40, 30]).m 1 2 +
        (computeOptimalOrder [10, 20, 30, 40, 30]).m 3 4 +
        [10, 20, 30, 40, 30].getD 0 0 * [10, 20, 30, 40, 30].getD 2 0 *
          [10, 20, 30, 40, 30].getD 4 0 :=
  ⟨by decide, c8_min_le_every_split [10, 20, 30, 40, 30] 1 4 2 (by decide)
    (by decide) (by decide) (by decide) (by decide)⟩

/-- C2 counterexample: for `P = [2147483647, 1, 1]` (all arithmetic well
within `int` range) the single candidate `q = 0 + 0 + 2147483647*1*1`
equals `INT_MAX`, so the strict `q < m[i][j]` update never fires:
`m[1][2]` keeps the sentinel (here coincidentally the minimum), but
`s[1][2]` stays `0`, not the smallest minimising `k = 1`. -/
theorem c2_cex :
    (computeOptimalOrder [2147483647, 1, 1]).m 1 2 =
      qCost [2147483647, 1, 1] (computeOptimalOrder [2147483647, 1, 1])
        1 2 1 ∧
    (computeOptimalOrder [2147483647, 1, 1]).s 1 2 = 0 := by decide

/-- C2 (amended): provided every candidate split cost stays strictly below
`INT_MAX`, `computeOptimalOrder` sets each `m[i][j]` (`1 ≤ i < j ≤ n`) to
the minimum over `k ∈ [i, j)` of `m[i][k] + m[k+1][j] + P[i-1]*P[k]*P[j]`,
and `s[i][j]` to the smallest `k` attaining it (earlier `k` are strictly
worse). -/
theorem c2_recurrence_and_first_argmin (P : List Int)
    (hq : ∀ i < P.length, ∀ j < P.length, ∀ k < j, 1 ≤ i → i ≤ k →
      qCost P (computeOptimalOrder P) i j k < INT_MAX) :
    ∀ i j, 1 ≤ i → i < j → j ≤ P.length - 1 →
      IsLeast {x : Int | ∃ k, i ≤ k ∧ k < j ∧
          x = (computeOptimalOrder P).m i k +
            (computeOptimalOrder P).m (k + 1) j +
            P.getD (i - 1) 0 * P.getD k 0 * P.getD j 0}
        ((computeOptimalOrder P).m i j) ∧
      (i ≤ (computeOptimalOrder P).s i j ∧
        (computeOptimalOrder P).s i j < j ∧
        (computeOptimalOrder P).m i j =
          qCost P (computeOptimalOrder P) i j
            ((computeOptimalOrder P).s i j) ∧
        ∀ k, i ≤ k → k < (computeOptimalOrder P).s i j →
          (computeOptimalOrder P).m i j <
            qCost P (computeOptimalOrder P) i j k) := by
  intro i j h1 h2 h3
  have hP : j < P.length := by omega
  have hall : ∀ k, i ≤ k → k < j →
      qCost P (computeOptimalOrder P) i j k < INT_MAX :=
    fun k hik hkj => hq i (by omega) j hP k hkj h1 hik
  obtain ⟨d, hd, hm, hs, hfirst⟩ := cell_argmin P i j h1 h2 h3 hall
  refine ⟨⟨⟨i + d, Nat.le_add_right i d, by omega, hm⟩, ?_⟩, ?_, ?_, ?_, ?_⟩
  · rintro x ⟨k, hik, hkj, rfl⟩
    exact cell_le_split P i j k h1 (by omega) h3 hik hkj
  · omega
  · omega
  · rw [hs]; exact hm
  · intro k hik hks
    have he := hfirst (k - i) (by omega)
    have hk : i + (k - i) = k := by omega
    rw [hk] at he
    exact he

/-- C2 witness at `P = [10, 20, 30, 40, 30]`, interval `(1, 4)`. -/
theorem c2_recurrence_and_first_argmin_witness :
    (∀ i < [10, 20, 30, 40, 30].length, ∀ j < [10, 20, 30, 40, 30].length,
      ∀ k < j, 1 ≤ i → i ≤ k →
        qCost [10, 20, 30, 40, 30]
          (computeOptimalOrder [10, 20, 30, 40, 30]) i j k < INT_MAX) ∧
    (IsLeast {x : Int | ∃ k, 1 ≤ k ∧ k < 4 ∧
        x = (computeOptimalOrder [10, 20, 30, 40, 30]).m 1 k +
          (computeOptimalOrder [10, 20, 30, 40, 30]).m (k + 1) 4 +
          [10, 20, 30, 40, 30].getD 0 0 * [10, 20, 30, 40, 30].getD k 0 *
            [10, 20, 30, 40, 30].getD 4 0}
      ((computeOptimalOrder [10, 20, 30, 40, 30]).m 1 4) ∧
      (1 ≤ (computeOptimalOrder [10, 20, 30, 40, 30]).s 1 4 ∧
        (computeOptimalOrder [10, 20, 30, 40, 30]).s 1 4 < 4 ∧
        (computeOptimalOrder [10, 20, 30, 40, 30]).m 1 4 =
          qCost [10, 20, 30, 40, 30]
            (computeOptimalOrder [10, 20, 30, 40, 30]) 1 4
            ((computeOptimalOrder [10, 20, 30, 40, 30]).s 1 4) ∧
        ∀ k, 1 ≤ k → k < (computeOptimalOrder [10, 20, 30, 40, 30]).s 1 4 →
          (computeOptimalOrder [10, 20, 30, 40, 30]).m 1 4 <
            qCost [10, 20, 30, 40, 30]
              (computeOptimalOrder [10, 20, 30, 40, 30]) 1 4 k)) :=
  ⟨by decide, c2_recurrence_and_first_argmin [10, 20, 30, 40, 30]
    (by decide) 1 4 (by decide) (by decide) (by decide)⟩

/-- C10 counterexample: for `P = [2147483647, 1, 1]` the single split cost
is exactly `INT_MAX` — it "does not exceed the 32-bit integer maximum" —
yet `s[1][2] = 0` lies outside `[1, 2)`, because the strict `<` against
the sentinel never fires. -/
theorem c10_cex :
    qCost [2147483647, 1, 1] (computeOptimalOrder [2147483647, 1, 1])
        1 2 1 ≤ INT_MAX ∧
      ¬(1 ≤ (computeOptimalOrder [2147483647, 1, 1]).s 1 2 ∧
        (computeOptimalOrder [2147483647, 1, 1]).s 1 2 < 2) := by decide

/-- C10 (amended): provided every candidate split cost is strictly below
`INT_MAX`, every off-diagonal split entry satisfies `i ≤ s[i][j] < j` for
`1 ≤ i < j ≤ n` — exactly the bound that keeps every index used by
`printOptimalParenthesis` inside the tables. -/
theorem cell_split_range (P : List Int)
    (hq : ∀ i < P.length, ∀ j < P.length, ∀ k < j, 1 ≤ i → i ≤ k →
      qCost P (computeOptimalOrder P) i j k < INT_MAX)
    (i j : Nat) (h1 : 1 ≤ i) (h2 : i < j) (h3 : j ≤ P.length - 1) :
    i ≤ (computeOptimalOrder P).s i j ∧
      (computeOptimalOrder P).s i j < j := by
  have hall : ∀ k, i ≤ k → k < j →
      qCost P (computeOptimalOrder P) i j k < INT_MAX :=
    fun k hik hkj => hq i (by omega) j (by omega) k hkj h1 hik
  obtain ⟨d, hd, _, hs, _⟩ := cell_argmin P i j h1 h2 h3 hall
  omega

theorem c10_split_in_range (P : List Int)
    (hq : ∀ i < P.length, ∀ j < P.length, ∀ k < j, 1 ≤ i → i ≤ k →
      qCost P (computeOptimalOrder P) i j k < INT_MAX) :
    ∀ i j, 1 ≤ i → i < j → j ≤ P.length - 1 →
      i ≤ (computeOptimalOrder P).s i j ∧
        (computeOptimalOrder P).s i j < j :=
  fun i j h1 h2 h3 => cell_split_range P hq i j h1 h2 h3

/-- C10 witness at `P = [10, 20, 30, 40, 30]`, interval `(1, 4)`. -/
theorem c10_split_in_range_witness :
    (∀ i < [10, 20, 30, 40, 30].length, ∀ j < [10, 20, 30, 40, 30].length,
      ∀ k < j, 1 ≤ i → i ≤ k →
        qCost [10, 20, 30, 40, 30]
          (computeOptimalOrder [10, 20, 30, 40, 30]) i j k < INT_MAX) ∧
    (1 ≤ (computeOptimalOrder [10, 20, 30, 40, 30]).s 1 4 ∧
      (computeOptimalOrder [10, 20, 30, 40, 30]).s 1 4 < 4) :=
  ⟨by decide, c10_split_in_range [10, 20, 30, 40, 30] (by decide) 1 4
    (by decide) (by decide) (by decide)⟩

/-- C9: after `computeOptimalOrder` on any dimension sequence,
`m[i][i] = 0` for every `i` in `1..n`; and when `n = 1` the minimum cost
returned by `getMinCost` is `0` and the rendered parenthesization is
`"A1"`. -/
theorem c9_diag_zero_and_single (P : List Int) :
    (∀ i, 1 ≤ i → i ≤ P.length - 1 →
      (computeOptimalOrder P).m i i = 0) ∧
    (P.length = 2 → getMinCost P = 0 ∧ renderTop P = some "A1") := by
  constructor
  · intro i _ _
    exact ((computeOptimalOrder_spec P).2 i i (by omega)).1
  · intro hlen
    constructor
    · unfold getMinCost
      rw [hlen]
      exact ((computeOptimalOrder_spec P).2 1 1 (by omega)).1
    · unfold renderTop
      rw [hlen]
      rfl

/-- C9 witness at `P = [7, 9]` (a single 7×9 matrix). -/
theorem c9_diag_zero_and_single_witness :
    (1 ≤ 1 ∧ 1 ≤ [(7 : Int), 9].length - 1 ∧ [(7 : Int), 9].length = 2) ∧
    (computeOptimalOrder [7, 9]).m 1 1 = 0 ∧
      getMinCost [7, 9] = 0 ∧ renderTop [7, 9] = some "A1" :=
  ⟨by decide,
    (c9_diag_zero_and_single [7, 9]).1 1 (by decide) (by decide),
    (c9_diag_zero_and_single [7, 9]).2 (by decide)⟩

/-! ### C1: `m[1][n]` against the minimum over all full parenthesizations -/

theorem treeCost_self (P : List Int) (i : Nat) (t : PTree i i) :
    treeCost P t = 0 := by
  cases t with
  | leaf => rfl
  | node i k j hik hkj l r => omega

theorem cell_isLeast (P : List Int)
    (hmax : ∀ i < P.length, ∀ j < P.length, 1 ≤ i → i ≤ j →
      (computeOptimalOrder P).m i j < INT_MAX) :
    ∀ i j, 1 ≤ i → i ≤ j → j ≤ P.length - 1 →
      IsLeast {c : Int | ∃ t : PTree i j, treeCost P t = c}
        ((computeOptimalOrder P).m i j) := by
  have main : ∀ D i j, j - i ≤ D → 1 ≤ i → i ≤ j → j ≤ P.length - 1 →
      IsLeast {c : Int | ∃ t : PTree i j, treeCost P t = c}
        ((computeOptimalOrder P).m i j) := by
    intro D
    induction D with
    | zero =>
      intro i j hD h1 h2 h3
      have hij : i = j := by omega
      subst hij
      have hz : (computeOptimalOrder P).m i i = 0 :=
        ((computeOptimalOrder_spec P).2 i i (by omega)).1
      constructor
      · exact ⟨PTree.leaf i, by rw [treeCost_self, hz]⟩
      · rintro x ⟨t, rfl⟩
        rw [treeCost_self, hz]
    | succ D ih =>
      intro i j hD h1 h2 h3
      by_cases hij : i = j
      · subst hij
        have hz : (computeOptimalOrder P).m i i = 0 :=
          ((computeOptimalOrder_spec P).2 i i (by omega)).1
        constructor
        · exact ⟨PTree.leaf i, by rw [treeCost_self, hz]⟩
        · rintro x ⟨t, rfl⟩
          rw [treeCost_self, hz]
      · have hlt : i < j := by omega
        constructor
        · -- membership: the scan hit some candidate below the sentinel
          have hm := cell_m_eq P i j h1 hlt h3
          have hattain := scanQ_attain
            (fun k => qCost P (computeOptimalOrder P) i j k) i
            (INT_MAX, 0) (j - i)
          rcases hattain with hacc | ⟨d, hd, hres⟩
          · exfalso
            rw [hacc] at hm
            have := hmax i (by omega) j (by omega) h1 h2
            omega
          · rw [hres] at hm
            set k := i + d with hk
            have hl := (ih i k (by omega) h1 (by omega) (by omega)).1
            have hr := (ih (k + 1) j (by omega) (by omega) (by omega) h3).1
            obtain ⟨l, hlc⟩ := hl
            obtain ⟨r, hrc⟩ := hr
            refine ⟨PTree.node i k j (by omega) (by omega) l r, ?_⟩
            show treeCost P l + treeCost P r +
              P.getD (i - 1) 0 * P.getD k 0 * P.getD j 0 = _
            rw [hlc, hrc, hm]
            rfl
        · -- lower bound: every tree factors through some split k
          rintro x ⟨t, rfl⟩
          cases t with
          | leaf => omega
          | node i k j hik hkj l r =>
            have hbl := (ih i k (by omega) h1 (by omega) (by omega)).2
              ⟨l, rfl⟩
            have hbr := (ih (k + 1) j (by omega) (by omega) (by omega) h3).2
              ⟨r, rfl⟩
            have hsplit := cell_le_split P i j k h1 h2 h3 hik hkj
            show (computeOptimalOrder P).m i j ≤
              treeCost P l + treeCost P r +
                P.getD (i - 1) 0 * P.getD k 0 * P.getD j 0
            have : (computeOptimalOrder P).m i k +
                (computeOptimalOrder P).m (k + 1) j +
                P.getD (i - 1) 0 * P.getD k 0 * P.getD j 0 ≤
                treeCost P l + treeCost P r +
                P.getD (i - 1) 0 * P.getD k 0 * P.getD j 0 := by
              have := add_le_add hbl hbr
              omega
            exact le_trans hsplit this
  intro i j h1 h2 h3
  exact main (j - i) i j (Nat.le_refl _) h1 h2 h3

/-- Every parenthesization of the 2-matrix chain `[2147483647, 1, 2]`
costs exactly `2147483647 * 1 * 2 = 4294967294`. -/
theorem tree12_cost (t : PTree 1 2) :
    treeCost [2147483647, 1, 2] t = 4294967294 := by
  cases t with
  | node i k j hik hkj l r =>
    have hk : k = 1 := by omega
    subst hk
    show treeCost _ l + treeCost _ r + _ = _
    rw [treeCost_self _ _ l, treeCost_self _ _ r]
    decide

/-- C1 counterexample: for the positive sequence `P = [2147483647, 1, 2]`
(n = 2), the unique parenthesization costs `4294967294`, which does not
fit in a 32-bit `int`: the table keeps the `INT_MAX` sentinel, so
`m[1][2]` is not the minimum cost. -/
theorem c1_cex :
    ¬ IsLeast
      {c : Int | ∃ t : PTree 1 2, treeCost [2147483647, 1, 2] t = c}
      (getMinCost [2147483647, 1, 2]) := by
  intro h
  obtain ⟨t, ht⟩ := h.1
  rw [tree12_cost t] at ht
  have hv : getMinCost [2147483647, 1, 2] = 2147483647 := by decide
  rw [hv] at ht
  exact absurd ht (by decide)

/-- The candidate-level sentinel bound implies the entry-level one: each
finalised entry of the upper triangle (diagonal included) is either `0`
or equal to one of its strictly-bounded candidates. -/
theorem cell_lt_of_cand_lt (P : List Int)
    (hq : ∀ i < P.length, ∀ j < P.length, ∀ k < j, 1 ≤ i → i ≤ k →
      qCost P (computeOptimalOrder P) i j k < INT_MAX) :
    ∀ i < P.length, ∀ j < P.length, 1 ≤ i → i ≤ j →
      (computeOptimalOrder P).m i j < INT_MAX := by
  intro i hi j hj h1 h2
  by_cases hij : i = j
  · subst hij
    rw [((computeOptimalOrder_spec P).2 i i (by omega)).1]
    decide
  · have hlt : i < j := by omega
    have hall : ∀ k, i ≤ k → k < j →
        qCost P (computeOptimalOrder P) i j k < INT_MAX :=
      fun k hik hkj => hq i (by omega) j hj k hkj h1 hik
    obtain ⟨d, hd, hm, _, _⟩ := cell_argmin P i j h1 hlt (by omega) hall
    rw [hm]
    exact hall (i + d) (Nat.le_add_right i d) (by omega)

/-- C1 (amended): for every `n ≥ 1` and positive dimension sequence whose
candidate split costs `m[i][k] + m[k+1][j] + P[i-1]*P[k]*P[j]` all stay
strictly below `INT_MAX` (the regime in which the 32-bit `int` arithmetic
of the code is exact), `m[1][n]` returned by `getMinCost` equals the
minimum over all full parenthesizations of the total
scalar-multiplication cost; and for `P = [10, 20, 30, 40, 30]` the
minimum cost is `30000`. -/
theorem c1_min_cost (P : List Int) (hn : 1 ≤ P.length - 1)
    (_hpos : ∀ x ∈ P, 0 < x)
    (hq : ∀ i < P.length, ∀ j < P.length, ∀ k < j, 1 ≤ i → i ≤ k →
      qCost P (computeOptimalOrder P) i j k < INT_MAX) :
    IsLeast {c : Int | ∃ t : PTree 1 (P.length - 1), treeCost P t = c}
      (getMinCost P) ∧
    getMinCost [10, 20, 30, 40, 30] = 30000 :=
  ⟨cell_isLeast P (cell_lt_of_cand_lt P hq) 1 (P.length - 1)
    (Nat.le_refl 1) hn (Nat.le_refl _), by decide⟩

/-- C1 witness at `P = [10, 20, 30, 40, 30]`. -/
theorem c1_min_cost_witness :
    (1 ≤ [(10 : Int), 20, 30, 40, 30].length - 1 ∧
      (∀ x ∈ [(10 : Int), 20, 30, 40, 30], 0 < x) ∧
      (∀ i < [(10 : Int), 20, 30, 40, 30].length,
        ∀ j < [(10 : Int), 20, 30, 40, 30].length, ∀ k < j, 1 ≤ i → i ≤ k →
          qCost [10, 20, 30, 40, 30]
            (computeOptimalOrder [10, 20, 30, 40, 30]) i j k < INT_MAX)) ∧
    IsLeast {c : Int | ∃ t : PTree 1 ([(10 : Int), 20, 30, 40, 30].length - 1),
        treeCost [10, 20, 30, 40, 30] t = c}
      (getMinCost [10, 20, 30, 40, 30]) ∧
    getMinCost [10, 20, 30, 40, 30] = 30000 :=
  ⟨⟨by decide, by decide, by decide⟩,
    c1_min_cost [10, 20, 30, 40, 30] (by decide) (by decide) (by decide)⟩

/-! ### C3, C6: the recursive reconstruction -/

theorem renderSpec_base (s : Nat → Nat → Nat) (i : Nat) :
    renderSpec s i i = "A" ++ toString i := by
  rw [renderSpec, dif_neg (lt_irrefl i)]

theorem renderSpec_step (s : Nat → Nat → Nat) (i j : Nat) (hij : i < j)
    (hs1 : i ≤ s i j) (hs2 : s i j < j) :
    renderSpec s i j =
      "(" ++ renderSpec s i (s i j) ++ " x " ++
        renderSpec s (s i j + 1) j ++ ")" := by
  rw [renderSpec, dif_pos hij]
  have hc : min (max (s i j) i) (j - 1) = s i j := by omega
  rw [hc]

/-- On a split table that is well-formed on all subintervals of `[i, j]`,
the streaming reconstruction succeeds for any fuel above the interval
width and appends exactly `renderSpec` to the stream. -/
theorem emit_eq (s : Nat → Nat → Nat) :
    ∀ fuel i j out, j - i < fuel → i ≤ j →
      (∀ a b, i ≤ a → a < b → b ≤ j → a ≤ s a b ∧ s a b < b) →
      printOptimalParenthesis s fuel i j out =
        some (out ++ renderSpec s i j) := by
  intro fuel
  induction fuel with
  | zero => intro i j out h _ _; exact absurd h (by omega)
  | succ fuel ih =>
    intro i j out hf hij hs
    by_cases hij' : i = j
    · subst hij'
      simp only [printOptimalParenthesis, if_true]
      rw [renderSpec_base]
      simp only [String.append_assoc]
    · have hlt : i < j := by omega
      have hsij := hs i j (Nat.le_refl i) hlt (Nat.le_refl j)
      simp only [printOptimalParenthesis, if_neg hij']
      rw [ih i (s i j) (out ++ "(") (by omega) (by omega)
        (fun a b ha hab hb => hs a b ha hab (by omega))]
      dsimp only
      rw [ih (s i j + 1) j
        (out ++ "(" ++ renderSpec s i (s i j) ++ " x ") (by omega)
        (by omega) (fun a b ha hab hb => hs a b (by omega) hab hb)]
      dsimp only
      rw [renderSpec_step s i j hlt hsij.1 hsij.2]
      simp only [String.append_assoc]

/-- C3 counterexample: the reconstruction for `P = [10, 20, 30]` emits
`"(A1 x A2)"` — the separator is a plain ASCII `" x "`, not `" × "`, so
the rendered expression is not `"(A1 × A2)"`. -/
theorem c3_cex :
    renderTop [10, 20, 30] = some "(A1 x A2)" ∧
      renderTop [10, 20, 30] ≠ some "(A1 × A2)" := by
  constructor
  · rfl
  · intro h
    have : ("(A1 x A2)" : String) = "(A1 × A2)" := by
      have h0 : renderTop [10, 20, 30] = some "(A1 x A2)" := rfl
      rw [h0] at h
      exact Option.some.inj h
    exact absurd this (by decide)

/-- C3 (amended): on any split table well-formed on the subintervals of
`[i, j]` and fuel above the interval width, the reconstructor emits
exactly `"A" ++ i` when `i = j`, and otherwise `"("`, the rendering of
`[i, s i j]`, the separator `" x "` (ASCII), the rendering of
`[s i j + 1, j]`, and `")"`; in particular for `P = [10, 20, 30]` the
rendered expression is `"(A1 x A2)"`. -/
theorem c3_render_structure (s : Nat → Nat → Nat) (fuel i j : Nat)
    (out : String) (hf : j - i < fuel) (hij : i ≤ j)
    (hsb : ∀ a < j + 1, ∀ b < j + 1, i ≤ a → a < b →
      a ≤ s a b ∧ s a b < b) :
    (i = j → printOptimalParenthesis s fuel i j out =
      some (out ++ "A" ++ toString i)) ∧
    (i < j → printOptimalParenthesis s fuel i j out =
      some (out ++ "(" ++ renderSpec s i (s i j) ++ " x " ++
        renderSpec s (s i j + 1) j ++ ")")) ∧
    renderTop [10, 20, 30] = some "(A1 x A2)" := by
  have hs : ∀ a b, i ≤ a → a < b → b ≤ j → a ≤ s a b ∧ s a b < b :=
    fun a b ha hab hb => hsb a (by omega) b (by omega) ha hab
  refine ⟨?_, ?_, rfl⟩
  · intro hij'
    subst hij'
    rw [emit_eq s fuel i i out hf (Nat.le_refl i) hs, renderSpec_base,
      String.append_assoc]
  · intro hlt
    have hsij := hs i j (Nat.le_refl i) hlt (Nat.le_refl j)
    rw [emit_eq s fuel i j out hf hij hs,
      renderSpec_step s i j hlt hsij.1 hsij.2]
    simp only [String.append_assoc]

/-- C3 witness: the structure theorem applied to the split table computed
for `P = [10, 20, 30]` on the full interval `[1, 2]`. -/
theorem c3_render_structure_witness :
    (2 - 1 < 3 ∧ 1 ≤ 2 ∧
      (∀ a < 2 + 1, ∀ b < 2 + 1, 1 ≤ a → a < b →
        a ≤ (computeOptimalOrder [10, 20, 30]).s a b ∧
          (computeOptimalOrder [10, 20, 30]).s a b < b)) ∧
    ((1 = 2 → printOptimalParenthesis (computeOptimalOrder [10, 20, 30]).s
        3 1 2 "" = some ("" ++ "A" ++ toString 1)) ∧
      (1 < 2 → printOptimalParenthesis (computeOptimalOrder [10, 20, 30]).s
        3 1 2 "" =
        some ("" ++ "(" ++
          renderSpec (computeOptimalOrder [10, 20, 30]).s 1
            ((computeOptimalOrder [10, 20, 30]).s 1 2) ++ " x " ++
          renderSpec (computeOptimalOrder [10, 20, 30]).s
            ((computeOptimalOrder [10, 20, 30]).s 1 2 + 1) 2 ++ ")")) ∧
      renderTop [10, 20, 30] = some "(A1 x A2)") :=
  ⟨⟨by decide, by decide, by decide⟩,
    c3_render_structure (computeOptimalOrder [10, 20, 30]).s 3 1 2 ""
      (by decide) (by decide) (by decide)⟩

/-- Helper for the C6 counterexample: once the split table sends interval
`[1, 0]` to split `0`, the second recursive call repeats interval `[1, 0]`
and the reconstruction never returns, whatever the recursion depth. -/
theorem emit_loop_at_zero (s : Nat → Nat → Nat) (h10 : s 1 0 = 0) :
    ∀ fuel out, printOptimalParenthesis s fuel 1 0 out = none := by
  intro fuel
  induction fuel with
  | zero => intro out; rfl
  | succ fuel ih =>
    intro out
    simp only [printOptimalParenthesis]
    rw [if_neg (by decide : ¬(1 = 0)), h10, ih (out ++ "(")]

theorem emit_none_12 (s : Nat → Nat → Nat) (h12 : s 1 2 = 0)
    (h10 : s 1 0 = 0) :
    ∀ fuel out, printOptimalParenthesis s fuel 1 2 out = none := by
  intro fuel out
  cases fuel with
  | zero => rfl
  | succ fuel =>
    simp only [printOptimalParenthesis]
    rw [if_neg (by decide : ¬(1 = 2)), h12,
      emit_loop_at_zero s h10 fuel (out ++ "(")]

/-- C6 counterexample: for `P = [2147483647, 1, 1]` (no `int` overflow
anywhere) `computeOptimalOrder` leaves `s[1][2] = 0`, and the
reconstruction of the full interval `[1, 2]` recurses on `[1, 0]`, then on
`[1, 0]` again — it does not terminate at any recursion depth, although
the split table was produced by `computeOptimalOrder`. -/
theorem c6_cex :
    ¬ emitTerminates (computeOptimalOrder [2147483647, 1, 1]).s 1 2 := by
  rintro ⟨fuel, hsome⟩
  rw [emit_none_12 _ (by decide) (by decide) fuel ""] at hsome
  exact absurd hsome (by decide)

/-- C6 (amended): provided every candidate split cost stays strictly below
`INT_MAX`, the recursive reconstruction of any interval
`1 ≤ i ≤ j ≤ n` over the split table produced by `computeOptimalOrder`
terminates — each recursive call is on a strictly smaller interval. -/
theorem c6_reconstruction_terminates (P : List Int)
    (hq : ∀ i < P.length, ∀ j < P.length, ∀ k < j, 1 ≤ i → i ≤ k →
      qCost P (computeOptimalOrder P) i j k < INT_MAX) :
    ∀ i j, 1 ≤ i → i ≤ j → j ≤ P.length - 1 →
      emitTerminates (computeOptimalOrder P).s i j := by
  intro i j h1 h2 h3
  refine ⟨j - i + 1, ?_⟩
  rw [emit_eq _ _ i j "" (by omega) h2 ?_]
  · rfl
  · intro a b ha hab hb
    exact cell_split_range P hq a b (by omega) hab (by omega)

/-- C6 witness at `P = [10, 20, 30, 40, 30]`, full interval `[1, 4]`. -/
theorem c6_reconstruction_terminates_witness :
    ((∀ i < [10, 20, 30, 40, 30].length, ∀ j < [10, 20, 30, 40, 30].length,
      ∀ k < j, 1 ≤ i → i ≤ k →
        qCost [10, 20, 30, 40, 30]
          (computeOptimalOrder [10, 20, 30, 40, 30]) i j k < INT_MAX) ∧
      1 ≤ 1 ∧ 1 ≤ 4 ∧ 4 ≤ [10, 20, 30, 40, 30].length - 1) ∧
    emitTerminates (computeOptimalOrder [10, 20, 30, 40, 30]).s 1 4 :=
  ⟨⟨by decide, by decide, by decide, by decide⟩,
    c6_reconstruction_terminates [10, 20, 30, 40, 30] (by decide) 1 4
      (by decide) (by decide) (by decide)⟩

/-- C7: the solver is a pure deterministic function of the dimension
sequence: two runs on the same sequence produce identical `m` tables,
identical `s` tables, the same minimum cost and the same rendered
expression — there is no hidden state in the model. -/
theorem c7_pure_deterministic (P Q : List Int) (hPQ : P = Q) :
    computeOptimalOrder P = computeOptimalOrder Q ∧
      getMinCost P = getMinCost Q ∧ renderTop P = renderTop Q := by
  subst hPQ
  exact ⟨rfl, rfl, rfl⟩

/-- C7 witness at `P = [10, 20, 30]`. -/
theorem c7_pure_deterministic_witness :
    ([(10 : Int), 20, 30] = [10, 20, 30]) ∧
    (computeOptimalOrder [10, 20, 30] = computeOptimalOrder [10, 20, 30] ∧
      getMinCost [10, 20, 30] = getMinCost [10, 20, 30] ∧
      renderTop [10, 20, 30] = renderTop [10, 20, 30]) :=
  ⟨rfl, c7_pure_deterministic [10, 20, 30] [10, 20, 30] rfl⟩

/-! ### C4, C5: the Catalan counter -/

theorem getD_replicate_zero : ∀ (m k : Nat),
    (List.replicate m (0 : Int)).getD k 0 = 0 := by
  intro m
  induction m with
  | zero => intro k; rfl
  | succ m ih =>
    intro k
    cases k with
    | zero => rfl
    | succ k => rw [List.replicate_succ, List.getD_cons_succ]; exact ih k

theorem getD_set_self : ∀ (l : List Int) (i : Nat) (v : Int),
    i < l.length → (l.set i v).getD i 0 = v := by
  intro l
  induction l with
  | nil => intro i v h; simp at h
  | cons a l ih =>
    intro i v h
    cases i with
    | zero => rfl
    | succ i =>
      rw [List.set_cons_succ, List.getD_cons_succ]
      exact ih i v (by simpa using h)

theorem getD_set_ne : ∀ (l : List Int) (i j : Nat) (v : Int), j ≠ i →
    (l.set i v).getD j 0 = l.getD j 0 := by
  intro l
  induction l with
  | nil => intro i j v _; rfl
  | cons a l ih =>
    intro i j v h
    cases i with
    | zero =>
      cases j with
      | zero => exact absurd rfl h
      | succ j => rfl
    | succ i =>
      cases j with
      | zero => rfl
      | succ j =>
        rw [List.set_cons_succ, List.getD_cons_succ, List.getD_cons_succ]
        exact ih i j v (by omega)

theorem foldl_range_add (f : Nat → Int) : ∀ (m : Nat) (b : Int),
    (List.range m).foldl (fun a j => a + f j) b =
      b + ∑ j in Finset.range m, f j := by
  intro m
  induction m with
  | zero => intro b; simp
  | succ m ih =>
    intro b
    rw [List.range_succ, List.foldl_append, List.foldl_cons, List.foldl_nil,
      ih, Finset.sum_range_succ]
    ring

/-- The convolution form of Mathlib's Catalan recurrence. -/
theorem catalan_conv (i : Nat) (hi : 1 ≤ i) :
    catalan i = ∑ j in Finset.range i, catalan j * catalan (i - j - 1) := by
  have h := catalan_succ (i - 1)
  rw [Fin.sum_univ_eq_sum_range (fun k => catalan k * catalan (i - 1 - k))
    (i - 1).succ] at h
  rw [show (i - 1).succ = i by omega, show i - 1 + 1 = i by omega] at h
  rw [h]
  exact Finset.sum_congr rfl
    (fun k _ => by rw [show i - 1 - k = i - k - 1 by omega])

/-- The bottom-up table of `catalanNumber` computes Mathlib's `catalan`
numbers (in exact integer arithmetic). -/
theorem catalanNumber_eq_catalan (n : Nat) :
    catalanNumber n = (catalan n : Int) := by
  by_cases hn : n ≤ 1
  · rcases Nat.le_one_iff_eq_zero_or_eq_one.mp hn with rfl | rfl
    · simp [catalanNumber, catalan_zero]
    · simp [catalanNumber, catalan_one]
  · unfold catalanNumber
    rw [if_neg hn]
    have key := foldl_range_inv
      (fun cat di => cat.set (di + 2)
        ((List.range (di + 2)).foldl
          (fun acc j => acc + cat.getD j 0 * cat.getD (di + 2 - j - 1) 0)
          (cat.getD (di + 2) 0)))
      (fun c cat => cat.length = n + 1 ∧
        (∀ idx, idx < c + 2 → idx ≤ n →
          cat.getD idx 0 = (catalan idx : Int)) ∧
        (∀ idx, c + 2 ≤ idx → cat.getD idx 0 = 0))
      (n - 1) (((List.replicate (n + 1) (0 : Int)).set 0 1).set 1 1)
      ?_ ?_
    · exact key.2.1 n (by omega) (Nat.le_refl n)
    · -- the initial table: cat[0] = cat[1] = 1, the rest 0
      refine ⟨by simp, ?_, ?_⟩
      · intro idx hidx _
        match idx, hidx with
        | 0, _ =>
          rw [getD_set_ne _ _ _ _ (by omega),
            getD_set_self _ _ _
              (by simp only [List.length_set, List.length_replicate]; omega)]
          simp [catalan_zero]
        | 1, _ =>
          rw [getD_set_self _ _ _
            (by simp only [List.length_set, List.length_replicate]; omega)]
          simp [catalan_one]
      · intro idx hidx
        rw [getD_set_ne _ _ _ _ (by omega), getD_set_ne _ _ _ _ (by omega),
          getD_replicate_zero]
    · -- one outer iteration fills entry `i = c + 2` with the convolution
      intro c cat hc ⟨hlen, hval, hzero⟩
      have hi : c + 2 ≤ n := by omega
      have hinit : cat.getD (c + 2) 0 = 0 := hzero (c + 2) (Nat.le_refl _)
      have hsum : (List.range (c + 2)).foldl
          (fun acc j => acc + cat.getD j 0 * cat.getD (c + 2 - j - 1) 0)
          (cat.getD (c + 2) 0) = (catalan (c + 2) : Int) := by
        rw [hinit, foldl_range_add, zero_add]
        have hcongr : ∑ j in Finset.range (c + 2),
            cat.getD j 0 * cat.getD (c + 2 - j - 1) 0 =
            ∑ j in Finset.range (c + 2),
              (catalan j : Int) * (catalan (c + 2 - j - 1) : Int) := by
          refine Finset.sum_congr rfl (fun j hj => ?_)
          have hj' : j < c + 2 := Finset.mem_range.mp hj
          rw [hval j hj' (by omega), hval (c + 2 - j - 1) (by omega) (by omega)]
        rw [hcongr, catalan_conv (c + 2) (by omega)]
        push_cast
        rfl
      refine ⟨by rw [List.length_set]; exact hlen, ?_, ?_⟩
      · intro idx hidx hidxn
        by_cases hcase : idx = c + 2
        · subst hcase
          rw [getD_set_self _ _ _ (by rw [hlen]; omega), hsum]
        · rw [getD_set_ne _ _ _ _ hcase]
          exact hval idx (by omega) hidxn
      · intro idx hidx
        rw [getD_set_ne _ _ _ _ (by omega)]
        exact hzero idx (by omega)

/-- C4: `catalanNumber` returns `1` for `n ≤ 1` and, for `n ≥ 2`, the value
of the convolution recurrence `C(n) = Σ_{j<n} C(j)·C(n-1-j)` with
`C(0) = C(1) = 1`; in particular `catalanNumber 0 = catalanNumber 1 = 1`,
`catalanNumber 4 = 14` and `catalanNumber 5 = 42`.  The result is a
function of `n` alone — the dimension values never enter. -/
theorem c4_catalan_recurrence :
    catalanNumber 0 = 1 ∧ catalanNumber 1 = 1 ∧ catalanNumber 4 = 14 ∧
    catalanNumber 5 = 42 ∧
    ∀ n, 2 ≤ n → catalanNumber n =
      ∑ j in Finset.range n, catalanNumber j * catalanNumber (n - 1 - j) := by
  refine ⟨by decide, by decide, by decide, by decide, ?_⟩
  intro n hn
  have hrw : ∀ m : Nat, catalanNumber m = (catalan m : Int) :=
    catalanNumber_eq_catalan
  rw [hrw n]
  have : ∑ j in Finset.range n, catalanNumber j * catalanNumber (n - 1 - j)
      = ∑ j in Finset.range n,
          (catalan j : Int) * (catalan (n - 1 - j) : Int) :=
    Finset.sum_congr rfl (fun j _ => by rw [hrw j, hrw (n - 1 - j)])
  rw [this, catalan_conv n (by omega)]
  push_cast
  exact Finset.sum_congr rfl
    (fun j _ => by rw [show n - 1 - j = n - j - 1 by omega])

/-- C4 witness: the recurrence instance at `n = 5`. -/
theorem c4_catalan_recurrence_witness :
    2 ≤ 5 ∧ catalanNumber 5 =
      ∑ j in Finset.range 5, catalanNumber j * catalanNumber (5 - 1 - j) :=
  ⟨by decide, c4_catalan_recurrence.2.2.2.2 5 (by decide)⟩

set_option maxRecDepth 100000 in
/-- C5: the Catalan computation (`long long`, a signed 64-bit type) agrees
with the mathematical Catalan number for every `n ≤ 30`, and the value
stays strictly below `2^63`, so the 64-bit signed computation does not
overflow on that range. -/
theorem c5_catalan_fits_64bit :
    ∀ n, n ≤ 30 → catalanNumber n = (catalan n : Int) ∧
      0 ≤ catalanNumber n ∧ catalanNumber n < 2 ^ 63 := by
  have hb : ∀ n < 31, 0 ≤ catalanNumber n ∧ catalanNumber n < 2 ^ 63 := by
    decide
  intro n hn
  exact ⟨catalanNumber_eq_catalan n, (hb n (by omega)).1, (hb n (by omega)).2⟩

/-- C5 witness at `n = 30`. -/
theorem c5_catalan_fits_64bit_witness :
    30 ≤ 30 ∧ (catalanNumber 30 = (catalan 30 : Int) ∧
      0 ≤ catalanNumber 30 ∧ catalanNumber 30 < 2 ^ 63) :=
  ⟨by decide, c5_catalan_fits_64bit 30 (by decide)⟩

